import Mathlib

/-!
Verification development for the player-name inference engine of
`tsny/shopsync` (package `icalplayers`).

The Go source is shallowly embedded over `Str := List Char`.  Character
classification (`unicode.IsSpace`, `unicode.IsUpper`, `unicode.IsLetter`,
case mapping) is modelled on its ASCII fragment plus the specific
non-ASCII characters the source mentions (`’`, en/em dashes); `len` of a
Go string is modelled as UTF-8 byte length via `Char.utf8Size`, and the
byte-wise Go string order is modelled code-point-wise (UTF-8 byte order
coincides with code-point order).  Go map iteration order is modelled by
a canonical insertion-ordered association list; the determinism theorem
quantifies over arbitrary iteration orders (permutations) to account for
Go's randomized map ranges.  `slices.Sort` / `slices.SortFunc` are
modelled by insertion sort: for the final `slices.Sort` any sorted
permutation is unique up to the antisymmetry of the order, and for the
chunk sort Go uses insertion sort on the small slices that occur here,
which is stable.
-/

abbrev Str := List Char

/-- Model of Go `unicode.IsSpace` (ASCII whitespace plus NEL and NBSP). -/
def goIsSpace (c : Char) : Bool :=
  c.toNat = 32 || c.toNat = 9 || c.toNat = 10 || c.toNat = 11 ||
  c.toNat = 12 || c.toNat = 13 || c.toNat = 133 || c.toNat = 160

/-- Model of the regexp character class `\s` = `[\t\n\v\f\r ]`. -/
def reIsSpace (c : Char) : Bool :=
  c.toNat = 32 || c.toNat = 9 || c.toNat = 10 || c.toNat = 11 ||
  c.toNat = 12 || c.toNat = 13

/-- Model of Go `unicode.IsUpper` (ASCII fragment). -/
def isUpperGo (c : Char) : Bool := 65 ≤ c.toNat && c.toNat ≤ 90

/-- Model of Go `unicode.IsLetter` (ASCII fragment). -/
def isLetterGo (c : Char) : Bool :=
  (65 ≤ c.toNat && c.toNat ≤ 90) || (97 ≤ c.toNat && c.toNat ≤ 122)

/-- Model of Go `strings.ToLower` on one character (ASCII fragment). -/
def toLowerChar (c : Char) : Char :=
  if 65 ≤ c.toNat ∧ c.toNat ≤ 90 then Char.ofNat (c.toNat + 32) else c

/-- Model of Go `strings.ToUpper` on one character (ASCII fragment). -/
def toUpperChar (c : Char) : Char :=
  if 97 ≤ c.toNat ∧ c.toNat ≤ 122 then Char.ofNat (c.toNat - 32) else c

/-- Model of Go `len` on strings: UTF-8 byte length. -/
def strLen (s : Str) : Nat := (s.map Char.utf8Size).sum

/-- Go string `<=` (byte-wise, equivalently code-point-wise). -/
def lexLe : Str → Str → Bool
  | [], _ => true
  | _ :: _, [] => false
  | a :: s1, b :: s2 =>
    if a.toNat < b.toNat then true
    else if b.toNat < a.toNat then false
    else lexLe s1 s2

/-- Whether `pat` is a leading segment of `s` (used for `strings.Contains`). -/
def leadsWith : Str → Str → Bool
  | [], _ => true
  | _ :: _, [] => false
  | a :: p, b :: s => a = b && leadsWith p s

/-- Model of Go `strings.Contains hay pat`. -/
def containsSub : Str → Str → Bool
  | [], pat => leadsWith pat []
  | c :: rest, pat => leadsWith pat (c :: rest) || containsSub rest pat

/-- Trim characters satisfying `p` from both ends (Go `strings.TrimFunc` shape;
with `goIsSpace` this is `strings.TrimSpace`). -/
def trimP (p : Char → Bool) (s : Str) : Str :=
  ((s.dropWhile p).reverse.dropWhile p).reverse

/-- Model of Go `strings.Trim s cutset` for a cutset given as a char list. -/
def trimChars (cut : List Char) (s : Str) : Str :=
  trimP (fun c => cut.contains c) s

/-- Model of Go `strings.Split s sep` for a one-character separator:
always returns at least one (possibly empty) piece. -/
def splitChar (sep : Char) : Str → List Str
  | [] => [[]]
  | c :: cs =>
    if c = sep then [] :: splitChar sep cs
    else
      match splitChar sep cs with
      | [] => [[c]]
      | t :: ts => (c :: t) :: ts

/-- Maximal runs of characters not satisfying `p` (Go `strings.FieldsFunc`;
with `goIsSpace` this is `strings.Fields`). -/
def fieldsP (p : Char → Bool) : Str → List Str
  | [] => []
  | [c] => if p c then [] else [[c]]
  | c :: d :: cs2 =>
    if p c then fieldsP p (d :: cs2)
    else if p d then [c] :: fieldsP p cs2
    else
      match fieldsP p (d :: cs2) with
      | [] => [[c]]
      | t :: ts => (c :: t) :: ts

/-- Model of Go `strings.Join parts " "`. -/
def joinSp : List Str → Str
  | [] => []
  | [t] => t
  | t :: t2 :: ts => t ++ ' ' :: joinSp (t2 :: ts)

/-- Whitespace normalization `strings.Join (strings.Fields s) " "`. -/
def normWs (s : Str) : Str := joinSp (fieldsP goIsSpace s)

/-- The dedup key of `normalizeAndDedup`: lower-cased first field. -/
def keyOf (sn : Str) : Str := ((fieldsP goIsSpace sn).headD []).map toLowerChar

/-- Model of Go `strings.Title` on one character position: the character is
title-cased when the previous character is a separator (non-alphanumeric,
non-underscore). -/
def isSepGo (c : Char) : Bool := !(isLetterGo c || c.isDigit || c = '_')

def titleAux : Bool → Str → Str
  | _, [] => []
  | prevSep, c :: cs => (if prevSep then toUpperChar c else c) :: titleAux (isSepGo c) cs

/-- Model of Go `strings.Title` (ASCII fragment of `unicode.ToTitle`). -/
def titleStr (s : Str) : Str := titleAux true s

/-- Model of `strings.ReplaceAll desc "\r\n" "\n"`. -/
def replaceCRLF : Str → Str
  | [] => []
  | '\r' :: '\n' :: rest => '\n' :: replaceCRLF rest
  | c :: rest => c :: replaceCRLF rest

/-- Case-insensitive literal match at the start of `s` (`lit` given in
lower case, as all cue-regex literals are). -/
def ciLeads : Str → Str → Bool
  | [], _ => true
  | _ :: _, [] => false
  | l :: ls, c :: cs => toLowerChar c = l && ciLeads ls cs

/-- Consumed length of a case-insensitive literal at the start of `s`. -/
def litLen (lit : Str) (s : Str) : Option Nat :=
  if ciLeads lit s then some lit.length else none

/-- After `n` consumed characters, match `\s*by`; the run of `\s` followed by
the literal `by` is deterministic because `b` is not a space character. -/
def hostByTail (s : Str) (n : Nat) : Option Nat :=
  let t := s.drop n
  let k := (t.takeWhile reIsSpace).length
  if ciLeads ("by".data) (t.drop k) then some (n + k + 2) else none

/-- After the literal `pre`, match `\s+` then `guests?` (or exactly `guest`
when `plural` is false), greedily preferring the plural form. -/
def spacedGuestTail (s : Str) (preLen : Nat) (plural : Bool) : Option Nat :=
  let t := s.drop preLen
  let k := (t.takeWhile reIsSpace).length
  if k = 0 then none
  else
    let t2 := t.drop k
    if plural && ciLeads ("guests".data) t2 then some (preLen + k + 6)
    else if ciLeads ("guest".data) t2 then some (preLen + k + 5)
    else none

/-- Candidate consumed lengths for the cue-line role group
`(players?|cast|featuring|with|lineup|performers?|host(?:ed)?\s*by|guests?|special\s+guests?|musical\s+guest)`
in leftmost-first backtracking order: alternatives in written order, the
optional `s` / `ed` tried greedily (present first). -/
def roleCands (s : Str) : List Nat :=
  ([ litLen ("players".data) s, litLen ("player".data) s,
     litLen ("cast".data) s,
     litLen ("featuring".data) s,
     litLen ("with".data) s,
     litLen ("lineup".data) s,
     litLen ("performers".data) s, litLen ("performer".data) s,
     (litLen ("hosted".data) s).bind (hostByTail s),
     (litLen ("host".data) s).bind (hostByTail s),
     litLen ("guests".data) s, litLen ("guest".data) s,
     (litLen ("special".data) s).bind (fun n => spacedGuestTail s n true),
     (litLen ("musical".data) s).bind (fun n => spacedGuestTail s n false) ]).filterMap id

/-- Backtracking for the trailing `\s*(.+)$`: the greedy `\s*` gives back
just enough space characters that `.+` (non-empty, no newline) reaches the
end of the line. -/
def dotTry (r : Str) : Nat → Option Str
  | 0 => if r ≠ [] ∧ ¬(r.contains '\n') then some r else none
  | i + 1 =>
    let v := r.drop (i + 1)
    if v ≠ [] ∧ ¬(v.contains '\n') then some v else dotTry r i

def dotPlusEnd (r : Str) : Option Str :=
  dotTry r (r.takeWhile reIsSpace).length

/-- Match `\s*[:\-]\s*(.+)$` against the rest of the line, returning the
capture group.  The `\s*` before the separator class is deterministic
because `:` and `-` are not space characters. -/
def sepAndValues (r : Str) : Option Str :=
  let r1 := r.drop (r.takeWhile reIsSpace).length
  match r1 with
  | [] => none
  | c :: r2 => if c = ':' ∨ c = '-' then dotPlusEnd r2 else none

/-- Model of `cueLine.FindStringSubmatch ln`: the regex is anchored, so only
position 0 is tried; returns (role text `m[1]`, values text `m[2]`). -/
def cueMatch (ln : Str) : Option (Str × Str) :=
  (roleCands ln).findSome? (fun n =>
    match sepAndValues (ln.drop n) with
    | some v => some (ln.take n, v)
    | none => none)

/-- One backtracking attempt of `sepRe` = `\s*(?:,|&| and |;|\+)\s*` at a
fixed start position, with the leading `\s*` already having consumed `i`
characters: alternatives in written order, then the greedy trailing `\s*`. -/
def sepAltsAt (t : Str) : Option Str :=
  if leadsWith (",".data) t then some ((t.drop 1).dropWhile reIsSpace)
  else if leadsWith ("&".data) t then some ((t.drop 1).dropWhile reIsSpace)
  else if leadsWith (" and ".data) t then some ((t.drop 5).dropWhile reIsSpace)
  else if leadsWith (";".data) t then some ((t.drop 1).dropWhile reIsSpace)
  else if leadsWith ("+".data) t then some ((t.drop 1).dropWhile reIsSpace)
  else none

/-- Leading-`\s*` backtracking for `sepRe` at one start position: the greedy
run of length `j` is tried first, then shorter ones. -/
def trySepAt (s : Str) : Nat → Option Str
  | 0 => sepAltsAt s
  | i + 1 =>
    match sepAltsAt (s.drop (i + 1)) with
    | some r => some r
    | none => trySepAt s i

def matchSepHere (s : Str) : Option Str :=
  trySepAt s (s.takeWhile reIsSpace).length

/-- Leftmost match of `sepRe` in `s`: piece before the match and rest after. -/
def findSepAux : Str → Str → Option (Str × Str)
  | acc, [] => (matchSepHere []).map (fun rest => (acc.reverse, rest))
  | acc, c :: t' =>
    match matchSepHere (c :: t') with
    | some rest => some (acc.reverse, rest)
    | none => findSepAux (c :: acc) t'

def findSep (s : Str) : Option (Str × Str) := findSepAux [] s

/-- Model of `sepRe.Split(values, -1)` (fuelled; each match consumes at least
one character, so `length + 1` fuel always suffices). -/
def splitSepFuel : Nat → Str → List Str
  | 0, s => [s]
  | fuel + 1, s =>
    match findSep s with
    | none => [s]
    | some (pre, post) => pre :: splitSepFuel fuel post

def splitSep (s : Str) : List Str := splitSepFuel (s.length + 1) s

/-- The `stopPhrases` table of the source. -/
def stopPhrasesList : List Str :=
  [ "doors open".data, "general admission".data, "improv jam".data,
    "open mic".data, "musical guest".data, "guest team".data,
    "on tech".data, "improv from".data, "vs".data, "vs.".data, "team".data ]

/-- The `stopSingles` table of the source. -/
def stopSinglesList : List Str :=
  [ "Show".data, "Jam".data, "Night".data, "The".data, "Team".data,
    "House".data, "Doors".data, "Open".data, "Admission".data, "Free".data,
    "Improv".data, "Guest".data, "Guests".data, "Special".data,
    "Musical".data, "Featuring".data ]

/-- Source `isStopSingle`: exact membership in `stopSingles`. -/
def isStopSingle (s : Str) : Bool := stopSinglesList.contains s

/-- Source `containsStopContext`, parametrized by the iteration order of the
`stopPhrases` map range (the result is order-independent; the canonical
version fixes the table order). -/
def containsStopContextOrd (ord : List Str) (line : Str) : Bool :=
  ord.any (fun k => containsSub (line.map toLowerChar) k)

def containsStopContext (line : Str) : Bool :=
  containsStopContextOrd stopPhrasesList line

/-- Source `allLettersDot`. -/
def allLettersDot (s : Str) : Bool :=
  s.all (fun c => isLetterGo c || c = '.' || c = '’' || c = '\'')

/-- Source `looksLikeNameToken`: initials (at most 3 bytes, letters, dots and
apostrophes, equal to its own upper-casing) or a token whose first rune is
upper case. -/
def looksLikeNameToken (tok : Str) : Bool :=
  match tok with
  | [] => false
  | c :: _ =>
    if strLen tok ≤ 3 && allLettersDot tok && (tok.map toUpperChar == tok) then true
    else isUpperGo c

def quoteChars : List Char := ['"', '\'']

def cutChars : List Char := ['(', '[', '{', '-']

/-- Source `cleanName`. -/
def cleanName (s0 : Str) : Str :=
  let s1 := trimP goIsSpace s0
  let s2 :=
    if s1.any (fun c => cutChars.contains c) then
      trimP goIsSpace (s1.takeWhile (fun c => !cutChars.contains c))
    else s1
  let s3 := trimChars quoteChars s2
  let s4 := joinSp (fieldsP goIsSpace s3)
  let parts := splitChar ' ' s4
  if parts.length = 0 ∨ parts.length > 3 then []
  else if parts.all looksLikeNameToken then s4 else []

/-- The delimiter class of `titleCaseChunks` / `singleTitleTokens`:
whitespace or one of the listed punctuation runes. -/
def punctList : List Char :=
  [',', ';', ':', '!', '?', '.', '(', ')', '[', ']',
   '{', '}', '|', '/', '\\', '+', '-', '–', '—']

def chunkDelim (c : Char) : Bool := goIsSpace c || punctList.contains c

def flushBuf (buf : List Str) : List Str :=
  if 1 ≤ buf.length ∧ buf.length ≤ 3 then [joinSp buf] else []

/-- The run-building loop of `titleCaseChunks`. -/
def buildChunks : List Str → List Str → List Str
  | [], buf => flushBuf buf
  | w :: ws, buf =>
    let w' := trimChars quoteChars w
    if w' = [] then buildChunks ws buf
    else if looksLikeNameToken w' && !isStopSingle w' then buildChunks ws (buf ++ [w'])
    else flushBuf buf ++ buildChunks ws []

/-- The multi-word-first comparison of `titleCaseChunks` (as a relation). -/
def chunkGe (a b : Str) : Prop :=
  (fieldsP goIsSpace b).length ≤ (fieldsP goIsSpace a).length

instance : DecidableRel chunkGe := fun a b =>
  Nat.decLe (fieldsP goIsSpace b).length (fieldsP goIsSpace a).length

/-- Source `titleCaseChunks`; the `slices.SortFunc` is modelled by stable
insertion sort (Go uses insertion sort on slices this small, which is
stable on ties of the word-count comparison). -/
def titleCaseChunks (text : Str) : List Str :=
  List.insertionSort chunkGe (buildChunks (fieldsP chunkDelim text) [])

/-- Source `singleTitleTokens`. -/
def singleTitleTokens (text : Str) : List Str :=
  (fieldsP chunkDelim text).filterMap (fun w =>
    let w' := trimChars quoteChars w
    if looksLikeNameToken w' && !isStopSingle w' then some w' else none)

/-- Source `isStopPhrase`. -/
def isStopPhrase (s : Str) : Bool :=
  let ls := (trimP goIsSpace s).map toLowerChar
  if stopPhrasesList.contains ls then true
  else
    match fieldsP goIsSpace ls with
    | [p1, p2] =>
      stopSinglesList.contains (titleStr p1) || stopSinglesList.contains (titleStr p2)
    | _ => false

/-- The `NameDict` structure: three lookup sets of lower-cased strings.
A Go `*NameDict` is `Option NameDict`; `none` models the nil pointer. -/
structure NameDict where
  first : List Str
  last : List Str
  full : List Str

/-- Source `acceptByDict`. -/
def acceptByDict (chunk : Str) (dict : Option NameDict) : Bool :=
  match dict with
  | none => decide (2 ≤ (fieldsP goIsSpace chunk).length)
  | some d =>
    let lc := chunk.map toLowerChar
    if d.full.contains lc then true
    else
      match fieldsP goIsSpace lc with
      | [p1] => d.first.contains p1
      | [p1, p2] => d.first.contains p1 || d.last.contains p2
      | [p1, _, p3] => d.first.contains p1 || d.last.contains p3
      | _ => false

/-- One step of the `best` map construction in `normalizeAndDedup`:
replace the value at an existing key only when the new string is strictly
longer (in bytes), otherwise append a fresh entry. -/
def updateBest : List (Str × Str) → Str → Str → List (Str × Str)
  | [], base, sn => [(base, sn)]
  | (k, v) :: rest, base, sn =>
    if k = base then (if strLen v < strLen sn then (k, sn) else (k, v)) :: rest
    else (k, v) :: updateBest rest base sn

def bestStep (best : List (Str × Str)) (s : Str) : List (Str × Str) :=
  let sn := normWs s
  if sn = [] then best else updateBest best (keyOf sn) sn

/-- The `best` map of `normalizeAndDedup`, as an insertion-ordered
association list (canonical iteration order). -/
def bestMap (xs : List Str) : List (Str × Str) := xs.foldl bestStep []

/-- The `seen` filter of `normalizeAndDedup`: keep the first value of each
lower-cased form. -/
def seenAux (seen : List Str) : List Str → List Str
  | [] => []
  | v :: vs =>
    let l := v.map toLowerChar
    if seen.contains l then seenAux seen vs else v :: seenAux (l :: seen) vs

def seenFilter (vs : List Str) : List Str := seenAux [] vs

/-- Go string order as a relation for `slices.Sort`. -/
def strLeProp (a b : Str) : Prop := lexLe a b = true

instance : DecidableRel strLeProp := fun a b => Bool.decEq (lexLe a b) true

def sortStrs (vs : List Str) : List Str := List.insertionSort strLeProp vs

/-- Emission phase of `normalizeAndDedup` from a given iteration order of
the `best` map. -/
def emitFrom (l : List (Str × Str)) : List Str :=
  sortStrs (seenFilter (l.map Prod.snd))

/-- Source `normalizeAndDedup` (with the canonical map iteration order). -/
def normalizeAndDedup (xs : List Str) : List Str := emitFrom (bestMap xs)

/-- Stage 1 (cue lines) for a single line, parametrized by the
`stopPhrases` iteration order. -/
def lineCands (spOrd : List Str) (ln0 : Str) : List Str :=
  let ln := trimP goIsSpace ln0
  if ln = [] then []
  else
    match cueMatch ln with
    | none => []
    | some (roleRaw, values) =>
      let role := (trimP goIsSpace roleRaw).map toLowerChar
      (splitSep values).filterMap (fun p =>
        let n := cleanName p
        if n ≠ [] ∧ ¬(containsStopContextOrd spOrd ln = true) then
          if containsSub role ("host".data) || containsSub role ("musical".data) then none
          else some n
        else none)

def stage1 (spOrd : List Str) (lines : List Str) : List Str :=
  lines.flatMap (lineCands spOrd)

/-- Stage 2: title-case chunks filtered by the stop-phrase predicate and the
dictionary disambiguator. -/
def stage2 (text : Str) (dict : Option NameDict) : List Str :=
  (titleCaseChunks text).filterMap (fun chunk =>
    if isStopPhrase chunk then none
    else if acceptByDict chunk dict then some chunk else none)

/-- Stage 3: single-token dictionary fallback body. -/
def stage3 (text : Str) (nd : NameDict) : List Str :=
  (singleTitleTokens text).filter (fun tok =>
    nd.first.contains (tok.map toLowerChar) && !isStopSingle tok)

/-- Candidates after stages 1 and 2 (stage 2 runs only when stage 1
produced nothing). -/
def cands12 (spOrd : List Str) (desc : Str) (dict : Option NameDict) : List Str :=
  let d := replaceCRLF desc
  let c1 := stage1 spOrd (splitChar '\n' d)
  if c1 = [] then stage2 d dict else c1

/-- The full candidate pool (stage 3 runs only when stages 1–2 produced
nothing, the dictionary is non-nil and its first-name set is non-empty). -/
def candidatesOfGen (spOrd : List Str) (desc : Str) (dict : Option NameDict) : List Str :=
  let c12 := cands12 spOrd desc dict
  if c12 = [] then
    match dict with
    | some nd => if !nd.first.isEmpty then stage3 (replaceCRLF desc) nd else []
    | none => []
  else c12

def candidatesOf (desc : Str) (dict : Option NameDict) : List Str :=
  candidatesOfGen stopPhrasesList desc dict

/-- Source `InferPlayerNames`. -/
def InferPlayerNames (desc : Str) (dict : Option NameDict) : List Str :=
  normalizeAndDedup (candidatesOf desc dict)

/-- The empty (but non-nil) dictionary object. -/
def emptyDict : NameDict := ⟨[], [], []⟩

/-- The keep-the-longer reduction of the `best` map (ties keep the first
operand, i.e. the first-seen candidate). -/
def pick (a b : Str) : Str := if strLen a < strLen b then b else a

/-- First-seen-wins maximum by byte length of a candidate group. -/
def firstMax : List Str → Option Str
  | [] => none
  | h :: t => some (t.foldl pick h)

/-- The group of normalized non-empty candidates sharing dedup key `k`. -/
def groupOf (k : Str) (xs : List Str) : List Str :=
  (xs.map normWs).filter (fun sn => !sn.isEmpty && keyOf sn == k)

/-- Association-list lookup, first binding wins (Go map lookup on the
insertion-ordered model). -/
def lookupK (k : Str) : List (Str × Str) → Option Str
  | [] => none
  | (k', v) :: rest => if k' = k then some v else lookupK k rest

/-- Structural well-formedness of a candidate string: non-empty, at most
three whitespace-separated fields, every field passing the name-token
predicate. -/
def goodCand (v : Str) : Prop :=
  fieldsP goIsSpace v ≠ [] ∧ (fieldsP goIsSpace v).length ≤ 3 ∧
    ∀ t ∈ fieldsP goIsSpace v, looksLikeNameToken t = true

theorem charToNat_ofNat (n : Nat) (h : n.isValidChar) : (Char.ofNat n).toNat = n := by
  simp [Char.ofNat, dif_pos h, Char.ofNatAux, Char.toNat, UInt32.toNat]

theorem toLowerChar_toNat_of_upper (c : Char) (h : 65 ≤ c.toNat ∧ c.toNat ≤ 90) :
    (toLowerChar c).toNat = c.toNat + 32 := by
  rw [toLowerChar, if_pos h]
  exact charToNat_ofNat _ (Or.inl (by omega))

theorem goIsSpace_toLowerChar (c : Char) : goIsSpace (toLowerChar c) = goIsSpace c := by
  by_cases h : 65 ≤ c.toNat ∧ c.toNat ≤ 90
  · have hn := toLowerChar_toNat_of_upper c h
    have hl : goIsSpace (toLowerChar c) = false := by
      simp only [goIsSpace, hn, Bool.or_eq_false_iff, decide_eq_false_iff_not]
      omega
    have hr : goIsSpace c = false := by
      simp only [goIsSpace, Bool.or_eq_false_iff, decide_eq_false_iff_not]
      omega
    rw [hl, hr]
  · rw [toLowerChar, if_neg h]

theorem lexLe_refl (a : Str) : lexLe a a = true := by
  induction a with
  | nil => rfl
  | cons x xs ih => simp [lexLe, ih]

theorem lexLe_total (a b : Str) : lexLe a b = true ∨ lexLe b a = true := by
  induction a generalizing b with
  | nil => exact Or.inl rfl
  | cons x xs ih =>
    cases b with
    | nil => exact Or.inr rfl
    | cons y ys =>
      rcases Nat.lt_trichotomy x.toNat y.toNat with h | h | h
      · left; simp [lexLe, h]
      · have h1 : ¬ x.toNat < y.toNat := by omega
        have h2 : ¬ y.toNat < x.toNat := by omega
        simpa [lexLe, h1, h2] using ih ys
      · right; simp [lexLe, h]

theorem lexLe_trans (a b c : Str) (hab : lexLe a b = true) (hbc : lexLe b c = true) :
    lexLe a c = true := by
  induction a generalizing b c with
  | nil => rfl
  | cons x xs ih =>
    cases b with
    | nil => simp [lexLe] at hab
    | cons y ys =>
      cases c with
      | nil => simp [lexLe] at hbc
      | cons z zs =>
        rcases Nat.lt_trichotomy x.toNat y.toNat with hxy | hxy | hxy
        · rcases Nat.lt_trichotomy y.toNat z.toNat with hyz | hyz | hyz
          · simp [lexLe, show x.toNat < z.toNat by omega]
          · simp [lexLe, show x.toNat < z.toNat by omega]
          · simp [lexLe, show ¬ y.toNat < z.toNat by omega, hyz] at hbc
        · rcases Nat.lt_trichotomy y.toNat z.toNat with hyz | hyz | hyz
          · simp [lexLe, show x.toNat < z.toNat by omega]
          · have h1 : ¬ x.toNat < y.toNat := by omega
            have h2 : ¬ y.toNat < x.toNat := by omega
            have h3 : ¬ y.toNat < z.toNat := by omega
            have h4 : ¬ z.toNat < y.toNat := by omega
            simp only [lexLe, h1, h2, if_false] at hab
            simp only [lexLe, h3, h4, if_false] at hbc
            simp only [lexLe, show ¬ x.toNat < z.toNat by omega,
              show ¬ z.toNat < x.toNat by omega, if_false]
            exact ih ys zs hab hbc
          · simp [lexLe, show ¬ y.toNat < z.toNat by omega, hyz] at hbc
        · simp [lexLe, show ¬ x.toNat < y.toNat by omega, hxy] at hab

theorem lexLe_antisymm (a b : Str) (hab : lexLe a b = true) (hba : lexLe b a = true) :
    a = b := by
  induction a generalizing b with
  | nil =>
    cases b with
    | nil => rfl
    | cons y ys => simp [lexLe] at hba
  | cons x xs ih =>
    cases b with
    | nil => simp [lexLe] at hab
    | cons y ys =>
      by_cases hxy : x.toNat < y.toNat
      · have hyx : ¬ y.toNat < x.toNat := by omega
        simp [lexLe, hyx, show ¬ y.toNat < x.toNat by omega, hxy] at hba
      · by_cases hyx : y.toNat < x.toNat
        · simp [lexLe, hxy, hyx] at hab
        · have ht : x.toNat = y.toNat := by omega
          have hx : x = y := Char.eq_of_val_eq (UInt32.toNat.inj ht)
          simp only [lexLe, hxy, hyx, if_false] at hab hba
          rw [hx, ih ys hab hba]

instance : IsTotal Str strLeProp := ⟨lexLe_total⟩

instance : IsTrans Str strLeProp := ⟨lexLe_trans⟩

instance : IsAntisymm Str strLeProp := ⟨lexLe_antisymm⟩

theorem fieldsP_props (p : Char → Bool) (s : Str) :
    ∀ t ∈ fieldsP p s, t ≠ [] ∧ ∀ c ∈ t, p c = false := by
  induction s using fieldsP.induct p with
  | case1 => simp [fieldsP]
  | case2 c hc => simp [fieldsP, hc]
  | case3 c hc =>
    intro t ht
    simp only [fieldsP, if_neg hc, List.mem_singleton] at ht
    subst ht
    refine ⟨by simp, ?_⟩
    intro x hx
    simp only [List.mem_singleton] at hx
    subst hx
    simpa using hc
  | case4 c d cs2 hc ih =>
    intro t ht
    simp only [fieldsP, if_pos hc] at ht
    exact ih t ht
  | case5 c d cs2 hc hd ih =>
    intro t ht
    simp only [fieldsP, if_neg hc, if_pos hd, List.mem_cons] at ht
    rcases ht with ht | ht
    · subst ht
      refine ⟨by simp, ?_⟩
      intro x hx
      simp only [List.mem_singleton] at hx
      subst hx
      simpa using hc
    · exact ih t ht
  | case6 c d cs2 hc hd heq ih =>
    intro t ht
    simp only [fieldsP, if_neg hc, if_neg hd, heq, List.mem_singleton] at ht
    subst ht
    refine ⟨by simp, ?_⟩
    intro x hx
    simp only [List.mem_singleton] at hx
    subst hx
    simpa using hc
  | case7 c d cs2 hc hd t0 ts heq ih =>
    intro t ht
    simp only [fieldsP, if_neg hc, if_neg hd, heq, List.mem_cons] at ht
    rcases ht with ht | ht
    · subst ht
      have h0 := ih t0 (by rw [heq]; exact List.mem_cons_self t0 ts)
      refine ⟨by simp, ?_⟩
      intro x hx
      simp only [List.mem_cons] at hx
      rcases hx with hx | hx
      · subst hx
        simpa using hc
      · exact h0.2 x hx
    · exact ih t (by rw [heq]; exact List.mem_cons_of_mem t0 ht)

theorem fieldsP_cons_ne_nil (p : Char → Bool) (c : Char) (cs : Str) (hc : p c = false) :
    fieldsP p (c :: cs) ≠ [] := by
  cases cs with
  | nil => simp [fieldsP, hc]
  | cons d cs2 =>
    simp only [fieldsP, hc, Bool.false_eq_true, if_false, if_neg]
    by_cases hd : p d = true
    · simp [hd]
    · simp only [hd, if_false]
      cases fieldsP p (d :: cs2) with
      | nil => simp
      | cons t ts => simp

theorem fieldsP_single (p : Char → Bool) (t : Str) (hne : t ≠ [])
    (hchars : ∀ c ∈ t, p c = false) : fieldsP p t = [t] := by
  induction t with
  | nil => exact absurd rfl hne
  | cons c cs ih =>
    have hc : p c = false := hchars c (List.mem_cons_self c cs)
    cases cs with
    | nil => simp [fieldsP, hc]
    | cons d cs2 =>
      have hd : p d = false := hchars d (by simp)
      have hrec : fieldsP p (d :: cs2) = [d :: cs2] := by
        apply ih (by simp)
        intro x hx
        exact hchars x (List.mem_cons_of_mem c hx)
      simp [fieldsP, hc, hd, hrec]

theorem fieldsP_token_append (p : Char → Bool) (t : Str) (hne : t ≠ [])
    (hchars : ∀ c ∈ t, p c = false) (d : Char) (hd : p d = true) (rest : Str) :
    fieldsP p (t ++ d :: rest) = t :: fieldsP p rest := by
  induction t with
  | nil => exact absurd rfl hne
  | cons c cs ih =>
    have hc : p c = false := hchars c (List.mem_cons_self c cs)
    cases cs with
    | nil => simp [fieldsP, hc, hd]
    | cons e cs2 =>
      have he : p e = false := hchars e (by simp)
      have hrec : fieldsP p ((e :: cs2) ++ d :: rest) = (e :: cs2) :: fieldsP p rest := by
        apply ih (by simp)
        intro x hx
        exact hchars x (List.mem_cons_of_mem c hx)
      simp only [List.cons_append, fieldsP, hc, Bool.false_eq_true, if_false, he, if_neg]
      rw [List.cons_append] at hrec
      simp [hrec]

theorem fieldsP_joinSp (fs : List Str)
    (h : ∀ t ∈ fs, t ≠ [] ∧ ∀ c ∈ t, goIsSpace c = false) :
    fieldsP goIsSpace (joinSp fs) = fs := by
  induction fs with
  | nil => rfl
  | cons t ts ih =>
    cases ts with
    | nil =>
      have ht := h t (by simp)
      simpa [joinSp] using fieldsP_single goIsSpace t ht.1 ht.2
    | cons t2 ts2 =>
      have ht := h t (by simp)
      have hrest : fieldsP goIsSpace (joinSp (t2 :: ts2)) = t2 :: ts2 := by
        apply ih
        intro x hx
        exact h x (List.mem_cons_of_mem t hx)
      rw [joinSp, fieldsP_token_append goIsSpace t ht.1 ht.2 ' ' (by decide) (joinSp (t2 :: ts2)), hrest]

theorem splitChar_no_sep (sep : Char) (t : Str) (h : ∀ c ∈ t, c ≠ sep) :
    splitChar sep t = [t] := by
  induction t with
  | nil => rfl
  | cons c cs ih =>
    have hc : c ≠ sep := h c (by simp)
    have hrec : splitChar sep cs = [cs] := ih (fun x hx => h x (List.mem_cons_of_mem c hx))
    simp [splitChar, hc, hrec]

theorem splitChar_append_sep (sep : Char) (t : Str) (h : ∀ c ∈ t, c ≠ sep) (rest : Str) :
    splitChar sep (t ++ sep :: rest) = t :: splitChar sep rest := by
  induction t with
  | nil => simp [splitChar]
  | cons c cs ih =>
    have hc : c ≠ sep := h c (by simp)
    have hrec : splitChar sep (cs ++ sep :: rest) = cs :: splitChar sep rest :=
      ih (fun x hx => h x (List.mem_cons_of_mem c hx))
    simp [splitChar, hc, hrec]

theorem splitChar_joinSp (fs : List Str) (hne : fs ≠ [])
    (h : ∀ t ∈ fs, ∀ c ∈ t, c ≠ ' ') :
    splitChar ' ' (joinSp fs) = fs := by
  induction fs with
  | nil => exact absurd rfl hne
  | cons t ts ih =>
    cases ts with
    | nil => simpa [joinSp] using splitChar_no_sep ' ' t (h t (by simp))
    | cons t2 ts2 =>
      have hrest : splitChar ' ' (joinSp (t2 :: ts2)) = t2 :: ts2 := by
        apply ih (by simp)
        intro x hx
        exact h x (List.mem_cons_of_mem t hx)
      rw [joinSp, splitChar_append_sep ' ' t (h t (by simp)) (joinSp (t2 :: ts2)), hrest]

theorem fieldsP_map (p : Char → Bool) (g : Char → Char) (hg : ∀ c, p (g c) = p c) (s : Str) :
    fieldsP p (s.map g) = (fieldsP p s).map (List.map g) := by
  induction s using fieldsP.induct p with
  | case1 => simp [fieldsP]
  | case2 c hc => simp [fieldsP, hc, hg]
  | case3 c hc =>
    have : p (g c) = false := by rw [hg]; simpa using hc
    simp [fieldsP, hc, this]
  | case4 c d cs2 hc ih =>
    have hgc : p (g c) = true := by rw [hg]; exact hc
    simp only [List.map_cons, fieldsP, if_pos hc, if_pos hgc]
    exact ih
  | case5 c d cs2 hc hd ih =>
    have hgc : p (g c) = false := by rw [hg]; simpa using hc
    have hgd : p (g d) = true := by rw [hg]; exact hd
    simp only [List.map_cons, fieldsP, hgc, Bool.false_eq_true, if_false, if_neg,
      if_pos hd, if_pos hgd, if_neg hc]
    simp [ih]
  | case6 c d cs2 hc hd heq ih =>
    exact absurd heq (fieldsP_cons_ne_nil p d cs2 (by simpa using hd))
  | case7 c d cs2 hc hd t0 ts heq ih =>
    have hgc : p (g c) = false := by rw [hg]; simpa using hc
    have hgd : p (g d) = false := by rw [hg]; simpa using hd
    have hmap : fieldsP p (List.map g (d :: cs2)) = List.map (List.map g) (t0 :: ts) := by
      rw [ih, heq]
    simp only [List.map_cons] at hmap
    simp only [List.map_cons, fieldsP, hgc, Bool.false_eq_true, if_false, if_neg,
      hgd, hmap, if_neg hc, if_neg hd, heq]

theorem fieldsP_normWs (s : Str) :
    fieldsP goIsSpace (normWs s) = fieldsP goIsSpace s := by
  exact fieldsP_joinSp (fieldsP goIsSpace s) (fieldsP_props goIsSpace s)

theorem normWs_idem (s : Str) : normWs (normWs s) = normWs s := by
  unfold normWs
  rw [show fieldsP goIsSpace (joinSp (fieldsP goIsSpace s)) = fieldsP goIsSpace s from
    fieldsP_joinSp (fieldsP goIsSpace s) (fieldsP_props goIsSpace s)]

theorem mem_trimP (p : Char → Bool) (s : Str) (c : Char) (hc : c ∈ trimP p s) : c ∈ s := by
  unfold trimP at hc
  rw [List.mem_reverse] at hc
  have h1 := (List.dropWhile_sublist p).mem hc
  rw [List.mem_reverse] at h1
  exact (List.dropWhile_sublist p).mem h1

theorem joinSp_ne_nil (fs : List Str) (hne : fs ≠ []) (h : ∀ t ∈ fs, t ≠ []) :
    joinSp fs ≠ [] := by
  cases fs with
  | nil => exact absurd rfl hne
  | cons t ts =>
    cases ts with
    | nil => simpa [joinSp] using h t (by simp)
    | cons t2 ts2 =>
      have := h t (by simp)
      simp only [joinSp]
      intro hcontra
      rcases List.append_eq_nil.mp hcontra with ⟨h1, _⟩
      exact this h1

theorem seenAux_sublist (vs seen : List Str) : (seenAux seen vs).Sublist vs := by
  induction vs generalizing seen with
  | nil => simp [seenAux]
  | cons v vs ih =>
    by_cases h : seen.contains (v.map toLowerChar) = true
    · simp only [seenAux, if_pos h]
      exact (ih seen).cons v
    · simp only [seenAux, if_neg h]
      exact (ih _).cons₂ v

theorem seenAux_mem (vs seen : List Str) (v : Str) (h : v ∈ seenAux seen vs) : v ∈ vs :=
  (seenAux_sublist vs seen).mem h

theorem seenAux_lower_nodup (vs : List Str) : ∀ seen : List Str,
    ((seenAux seen vs).map (List.map toLowerChar)).Nodup ∧
      ∀ v ∈ seenAux seen vs, (v.map toLowerChar) ∉ seen := by
  induction vs with
  | nil => intro seen; simp [seenAux]
  | cons v vs ih =>
    intro seen
    by_cases h : seen.contains (v.map toLowerChar) = true
    · simpa only [seenAux, if_pos h] using ih seen
    · simp only [seenAux, if_neg h, List.map_cons, List.nodup_cons, List.mem_cons]
      have hrec := ih ((v.map toLowerChar) :: seen)
      refine ⟨⟨?_, hrec.1⟩, ?_⟩
      · intro hmem
        rcases List.mem_map.mp hmem with ⟨w, hw, hweq⟩
        exact (hrec.2 w hw) (by rw [hweq]; exact List.mem_cons_self _ _)
      · intro w hw
        rcases hw with hw | hw
        · subst hw
          intro hmem
          exact h (by simpa using hmem)
        · intro hmem
          exact (hrec.2 w hw) (List.mem_cons_of_mem _ hmem)

theorem seenAux_eq_self (vs : List Str) : ∀ seen : List Str,
    (vs.map (List.map toLowerChar)).Nodup →
    (∀ v ∈ vs, (v.map toLowerChar) ∉ seen) → seenAux seen vs = vs := by
  induction vs with
  | nil => intro seen _ _; rfl
  | cons v vs ih =>
    intro seen hnd hdisj
    have h : seen.contains (v.map toLowerChar) ≠ true := by
      intro hc
      exact hdisj v (by simp) (by simpa using hc)
    simp only [seenAux, if_neg h]
    congr 1
    apply ih
    · simpa using hnd.of_cons
    · intro w hw
      simp only [List.map_cons, List.nodup_cons] at hnd
      intro hmem
      rcases List.mem_cons.mp hmem with hmem | hmem
      · exact hnd.1 (hmem ▸ List.mem_map_of_mem (List.map toLowerChar) hw)
      · exact hdisj w (List.mem_cons_of_mem v hw) hmem

theorem updateBest_mem (best : List (Str × Str)) (base sn : Str) (kv : Str × Str)
    (h : kv ∈ updateBest best base sn) : kv ∈ best ∨ kv = (base, sn) := by
  induction best with
  | nil => simpa [updateBest] using h
  | cons kv0 rest ih =>
    obtain ⟨k, v⟩ := kv0
    by_cases hk : k = base
    · subst hk
      simp only [updateBest, if_pos rfl] at h
      by_cases hlen : strLen v < strLen sn
      · rw [if_pos hlen] at h
        rcases List.mem_cons.mp h with h | h
        · right; rw [h]
        · left; exact List.mem_cons_of_mem _ h
      · rw [if_neg hlen] at h
        exact Or.inl h
    · simp only [updateBest, if_neg hk] at h
      rcases List.mem_cons.mp h with h | h
      · left; rw [h]; exact List.mem_cons_self _ _
      · rcases ih h with h | h
        · left; exact List.mem_cons_of_mem _ h
        · right; exact h

theorem updateBest_keys (best : List (Str × Str)) (base sn : Str) :
    (updateBest best base sn).map Prod.fst =
      if base ∈ best.map Prod.fst then best.map Prod.fst
      else best.map Prod.fst ++ [base] := by
  induction best with
  | nil => simp [updateBest]
  | cons kv0 rest ih =>
    obtain ⟨k, v⟩ := kv0
    by_cases hk : k = base
    · subst hk
      by_cases hlen : strLen v < strLen sn <;>
        simp [updateBest, hlen]
    · have hne : ¬ base = k := fun h => hk h.symm
      simp only [updateBest, if_neg hk, List.map_cons, List.mem_cons]
      rw [ih]
      by_cases hmem : base ∈ rest.map Prod.fst
      · simp [hmem, hne]
      · simp [hmem, hne]

theorem updateBest_fresh (best : List (Str × Str)) (base sn : Str)
    (h : base ∉ best.map Prod.fst) : updateBest best base sn = best ++ [(base, sn)] := by
  induction best with
  | nil => rfl
  | cons kv0 rest ih =>
    obtain ⟨k, v⟩ := kv0
    simp only [List.map_cons, List.mem_cons] at h
    push_neg at h
    have hk : k ≠ base := fun he => h.1 he.symm
    simp only [updateBest, if_neg hk, List.cons_append]
    rw [ih h.2]

theorem lookupK_updateBest_same (best : List (Str × Str)) (base sn : Str) :
    lookupK base (updateBest best base sn) =
      some (match lookupK base best with
            | none => sn
            | some v => if strLen v < strLen sn then sn else v) := by
  induction best with
  | nil => simp [updateBest, lookupK]
  | cons kv0 rest ih =>
    obtain ⟨k, v⟩ := kv0
    by_cases hk : k = base
    · subst hk
      by_cases hlen : strLen v < strLen sn <;>
        simp [updateBest, lookupK, hlen]
    · simp only [updateBest, if_neg hk, lookupK, if_neg hk, ih]

theorem lookupK_updateBest_other (best : List (Str × Str)) (base sn k : Str) (hk : k ≠ base) :
    lookupK k (updateBest best base sn) = lookupK k best := by
  induction best with
  | nil => simp [updateBest, lookupK, Ne.symm hk]
  | cons kv0 rest ih =>
    obtain ⟨k', v⟩ := kv0
    by_cases hk' : k' = base
    · subst hk'
      have hne : ¬ k' = k := fun h => hk h.symm
      by_cases hlen : strLen v < strLen sn <;>
        simp [updateBest, lookupK, hlen, hne]
    · by_cases hkk : k' = k
      · subst hkk
        simp [updateBest, if_neg hk', lookupK]
      · simp [updateBest, if_neg hk', lookupK, hkk, ih]

theorem bestFold_prop (S : Str → Prop) (l : List Str) : ∀ acc : List (Str × Str),
    (∀ kv ∈ acc, (∃ s, S s ∧ kv.2 = normWs s) ∧ kv.2 ≠ [] ∧ kv.1 = keyOf kv.2) →
    (∀ s ∈ l, S s) →
    ∀ kv ∈ l.foldl bestStep acc,
      (∃ s, S s ∧ kv.2 = normWs s) ∧ kv.2 ≠ [] ∧ kv.1 = keyOf kv.2 := by
  induction l with
  | nil => intro acc hacc _ kv hkv; exact hacc kv hkv
  | cons s l ih =>
    intro acc hacc hl kv hkv
    simp only [List.foldl_cons] at hkv
    refine ih _ ?_ (fun x hx => hl x (List.mem_cons_of_mem s hx)) kv hkv
    intro kv' hkv'
    simp only [bestStep] at hkv'
    by_cases hsn : normWs s = []
    · rw [if_pos hsn] at hkv'
      exact hacc kv' hkv'
    · rw [if_neg hsn] at hkv'
      rcases updateBest_mem _ _ _ _ hkv' with h | h
      · exact hacc kv' h
      · subst h
        exact ⟨⟨s, hl s (List.mem_cons_self s l), rfl⟩, hsn, rfl⟩

theorem bestFold_keys_nodup (l : List Str) : ∀ acc : List (Str × Str),
    (acc.map Prod.fst).Nodup → ((l.foldl bestStep acc).map Prod.fst).Nodup := by
  induction l with
  | nil => intro acc hacc; simpa using hacc
  | cons s l ih =>
    intro acc hacc
    simp only [List.foldl_cons]
    apply ih
    simp only [bestStep]
    by_cases hsn : normWs s = []
    · rw [if_pos hsn]; exact hacc
    · rw [if_neg hsn, updateBest_keys]
      by_cases hmem : keyOf (normWs s) ∈ acc.map Prod.fst
      · rw [if_pos hmem]; exact hacc
      · rw [if_neg hmem]
        simp [List.nodup_append, hacc, hmem]

theorem bestMap_prop (xs : List Str) :
    ∀ kv ∈ bestMap xs, (∃ s ∈ xs, kv.2 = normWs s) ∧ kv.2 ≠ [] ∧ kv.1 = keyOf kv.2 := by
  intro kv hkv
  have h := bestFold_prop (fun s => s ∈ xs) xs [] (by simp) (fun s hs => hs) kv hkv
  exact ⟨by rcases h.1 with ⟨s, hs, heq⟩; exact ⟨s, hs, heq⟩, h.2⟩

theorem bestMap_keys_nodup (xs : List Str) : ((bestMap xs).map Prod.fst).Nodup :=
  bestFold_keys_nodup xs [] (by simp)

theorem headD_map_lower (l : List Str) :
    (l.map (List.map toLowerChar)).headD [] = (l.headD []).map toLowerChar := by
  cases l <;> simp

theorem keyOf_lower (v : Str) :
    keyOf v = (fieldsP goIsSpace (v.map toLowerChar)).headD [] := by
  unfold keyOf
  rw [fieldsP_map goIsSpace toLowerChar goIsSpace_toLowerChar v, headD_map_lower]

theorem keyOf_congr (v w : Str) (h : v.map toLowerChar = w.map toLowerChar) :
    keyOf v = keyOf w := by
  rw [keyOf_lower v, keyOf_lower w, h]

theorem bestMap_values_lower_nodup (xs : List Str) :
    ((bestMap xs).map (fun kv => kv.2.map toLowerChar)).Nodup := by
  have hkeys := bestMap_keys_nodup xs
  have hprop := bestMap_prop xs
  have h1 : (bestMap xs).map Prod.fst = (bestMap xs).map (fun kv => keyOf kv.2) :=
    List.map_congr_left (fun kv hkv => (hprop kv hkv).2.2)
  rw [h1] at hkeys
  have h2 : List.Pairwise (fun a b : Str × Str => keyOf a.2 ≠ keyOf b.2) (bestMap xs) :=
    (List.pairwise_map).mp hkeys
  have h3 : List.Pairwise
      (fun a b : Str × Str => a.2.map toLowerChar ≠ b.2.map toLowerChar) (bestMap xs) :=
    h2.imp (fun hne heq => hne (keyOf_congr _ _ heq))
  simpa [List.Nodup, List.pairwise_map] using h3

theorem mem_sortStrs (vs : List Str) (v : Str) : v ∈ sortStrs vs ↔ v ∈ vs :=
  (List.perm_insertionSort strLeProp vs).mem_iff

theorem seenFilter_eq_of_nodup (vs : List Str)
    (h : (vs.map (List.map toLowerChar)).Nodup) : seenFilter vs = vs :=
  seenAux_eq_self vs [] h (by simp)

theorem bestMap_values_lower_nodup' (xs : List Str) :
    (((bestMap xs).map Prod.snd).map (List.map toLowerChar)).Nodup := by
  simpa [List.map_map, Function.comp] using bestMap_values_lower_nodup xs

theorem normalizeAndDedup_eq_sort (xs : List Str) :
    normalizeAndDedup xs = sortStrs ((bestMap xs).map Prod.snd) := by
  unfold normalizeAndDedup emitFrom
  rw [seenFilter_eq_of_nodup _ (bestMap_values_lower_nodup' xs)]

theorem any_perm (f : Str → Bool) (l1 l2 : List Str) (h : l1.Perm l2) :
    l1.any f = l2.any f := by
  cases hb : l2.any f with
  | false =>
    rw [List.any_eq_false] at hb ⊢
    intro x hx
    exact hb x (h.mem_iff.mp hx)
  | true =>
    rw [List.any_eq_true] at hb ⊢
    rcases hb with ⟨x, hx, hfx⟩
    exact ⟨x, h.mem_iff.mpr hx, hfx⟩

theorem containsStopContextOrd_perm (spOrd : List Str) (h : spOrd.Perm stopPhrasesList)
    (line : Str) : containsStopContextOrd spOrd line = containsStopContext line :=
  any_perm _ spOrd stopPhrasesList h

theorem lineCands_ord (spOrd : List Str) (h : spOrd.Perm stopPhrasesList) (ln : Str) :
    lineCands spOrd ln = lineCands stopPhrasesList ln := by
  simp only [lineCands, containsStopContextOrd_perm spOrd h,
    containsStopContextOrd_perm stopPhrasesList (List.Perm.refl _)]

theorem candidatesOfGen_ord (spOrd : List Str) (h : spOrd.Perm stopPhrasesList)
    (desc : Str) (dict : Option NameDict) :
    candidatesOfGen spOrd desc dict = candidatesOf desc dict := by
  unfold candidatesOfGen candidatesOf cands12 stage1
  rw [funext (lineCands_ord spOrd h)]
  rfl

theorem emitFrom_perm (l1 l2 : List (Str × Str)) (hperm : l1.Perm l2)
    (hnd : ((l2.map Prod.snd).map (List.map toLowerChar)).Nodup) :
    emitFrom l1 = emitFrom l2 := by
  have hpv : (l1.map Prod.snd).Perm (l2.map Prod.snd) := hperm.map _
  have hnd1 : ((l1.map Prod.snd).map (List.map toLowerChar)).Nodup :=
    ((hpv.map _).nodup_iff).mpr hnd
  unfold emitFrom
  rw [seenFilter_eq_of_nodup _ hnd1, seenFilter_eq_of_nodup _ hnd]
  unfold sortStrs
  refine List.eq_of_perm_of_sorted ?_
    (List.sorted_insertionSort strLeProp _) (List.sorted_insertionSort strLeProp _)
  exact (List.perm_insertionSort _ _).trans (hpv.trans (List.perm_insertionSort _ _).symm)

theorem groupOf_append_one (k : Str) (xs : List Str) (s : Str) :
    groupOf k (xs ++ [s]) = groupOf k xs ++
      (if (!(normWs s).isEmpty && (keyOf (normWs s) == k)) = true then [normWs s] else []) := by
  unfold groupOf
  rw [List.map_append, List.filter_append, List.map_singleton, List.filter_singleton,
    Bool.cond_eq_ite]

theorem bestMap_append_one (xs : List Str) (s : Str) :
    bestMap (xs ++ [s]) = bestStep (bestMap xs) s := by
  unfold bestMap
  rw [List.foldl_append]
  rfl

theorem lookupK_bestMap (xs : List Str) (k : Str) :
    lookupK k (bestMap xs) = firstMax (groupOf k xs) := by
  induction xs using List.reverseRecOn with
  | nil => simp [bestMap, lookupK, groupOf, firstMax]
  | append_singleton xs s ih =>
    rw [bestMap_append_one, groupOf_append_one]
    simp only [bestStep]
    by_cases hsn : normWs s = []
    · have hc : (!(normWs s).isEmpty && (keyOf (normWs s) == k)) = false := by
        rw [hsn]; rfl
      rw [if_pos hsn, hc]
      simpa using ih
    · rw [if_neg hsn]
      by_cases hkey : keyOf (normWs s) = k
      · subst hkey
        have hc : (!(normWs s).isEmpty && (keyOf (normWs s) == keyOf (normWs s))) = true := by
          simp [List.isEmpty_iff, hsn]
        rw [lookupK_updateBest_same, hc, if_pos rfl, ih]
        cases hg : groupOf (keyOf (normWs s)) xs with
        | nil => simp [firstMax]
        | cons h0 t0 =>
          simp only [List.cons_append, firstMax, List.foldl_append, List.foldl_cons,
            List.foldl_nil]
          rfl
      · have hkne : k ≠ keyOf (normWs s) := fun he => hkey he.symm
        rw [lookupK_updateBest_other _ _ _ _ hkne]
        have hc : (!(normWs s).isEmpty && (keyOf (normWs s) == k)) = false := by
          simp [hkey]
        rw [hc]
        simpa using ih

theorem mem_iff_lookupK (l : List (Str × Str)) (k v : Str) :
    (l.map Prod.fst).Nodup → ((k, v) ∈ l ↔ lookupK k l = some v) := by
  induction l with
  | nil => intro _; simp [lookupK]
  | cons kv0 rest ih =>
    intro hnd
    obtain ⟨k', v'⟩ := kv0
    simp only [List.map_cons, List.nodup_cons] at hnd
    by_cases hk : k' = k
    · subst hk
      constructor
      · intro h
        rcases List.mem_cons.mp h with h | h
        · have hv : v = v' := congrArg Prod.snd h
          simp [lookupK, hv]
        · exact absurd (List.mem_map_of_mem Prod.fst h) (by simpa using hnd.1)
      · intro h
        have hv : v' = v := by simpa [lookupK] using h
        subst hv
        exact List.mem_cons_self _ _
    · constructor
      · intro h
        rcases List.mem_cons.mp h with h | h
        · exact absurd (congrArg Prod.fst h).symm hk
        · simp only [lookupK, if_neg hk]
          exact (ih hnd.2).mp h
      · intro h
        simp only [lookupK, if_neg hk] at h
        exact List.mem_cons_of_mem _ ((ih hnd.2).mpr h)

theorem bestFold_fresh (l : List Str) : ∀ acc : List (Str × Str),
    (∀ v ∈ l, v = normWs v ∧ v ≠ []) →
    List.Pairwise (fun a b : Str => keyOf a ≠ keyOf b) l →
    (∀ v ∈ l, keyOf v ∉ acc.map Prod.fst) →
    l.foldl bestStep acc = acc ++ l.map (fun v => (keyOf v, v)) := by
  induction l with
  | nil => intro acc _ _ _; simp
  | cons v l ih =>
    intro acc hnorm hpw hfresh
    have hv := hnorm v (List.mem_cons_self v l)
    simp only [List.foldl_cons, bestStep]
    rw [← hv.1, if_neg hv.2, updateBest_fresh _ _ _ (hfresh v (List.mem_cons_self v l))]
    have hfr : ∀ w ∈ l, keyOf w ∉ (acc ++ [(keyOf v, v)]).map Prod.fst := by
      intro w hw
      rw [List.map_append]
      simp only [List.mem_append, List.map_singleton, List.mem_singleton]
      push_neg
      refine ⟨hfresh w (List.mem_cons_of_mem v hw), ?_⟩
      have hne := (List.pairwise_cons.mp hpw).1 w hw
      exact fun he => hne he.symm
    rw [ih (acc ++ [(keyOf v, v)]) (fun w hw => hnorm w (List.mem_cons_of_mem v hw))
      (List.pairwise_cons.mp hpw).2 hfr]
    simp

theorem bestMap_of_distinct (l : List Str)
    (hnorm : ∀ v ∈ l, v = normWs v ∧ v ≠ [])
    (hpw : List.Pairwise (fun a b : Str => keyOf a ≠ keyOf b) l) :
    bestMap l = l.map (fun v => (keyOf v, v)) := by
  simpa using bestFold_fresh l [] hnorm hpw (by simp)

theorem mem_normalizeAndDedup_iff (xs : List Str) (v : Str) :
    v ∈ normalizeAndDedup xs ↔ ∃ kv ∈ bestMap xs, kv.2 = v := by
  rw [normalizeAndDedup_eq_sort, mem_sortStrs]
  exact List.mem_map

theorem normalizeAndDedup_sorted (xs : List Str) :
    (normalizeAndDedup xs).Sorted strLeProp := by
  rw [normalizeAndDedup_eq_sort]
  exact List.sorted_insertionSort strLeProp _

theorem normalizeAndDedup_perm_values (xs : List Str) :
    (normalizeAndDedup xs).Perm ((bestMap xs).map Prod.snd) := by
  rw [normalizeAndDedup_eq_sort]
  exact List.perm_insertionSort strLeProp _

theorem normalizeAndDedup_lower_nodup (xs : List Str) :
    ((normalizeAndDedup xs).map (List.map toLowerChar)).Nodup :=
  (((normalizeAndDedup_perm_values xs).map (List.map toLowerChar)).nodup_iff).mpr
    (bestMap_values_lower_nodup' xs)

theorem bestMap_values_keys_pairwise (xs : List Str) :
    List.Pairwise (fun a b : Str => keyOf a ≠ keyOf b) ((bestMap xs).map Prod.snd) := by
  have hkeys := bestMap_keys_nodup xs
  have hprop := bestMap_prop xs
  have h1 : (bestMap xs).map Prod.fst = (bestMap xs).map (fun kv => keyOf kv.2) :=
    List.map_congr_left (fun kv hkv => (hprop kv hkv).2.2)
  rw [h1] at hkeys
  have h2 : List.Pairwise (fun a b : Str × Str => keyOf a.2 ≠ keyOf b.2) (bestMap xs) :=
    (List.pairwise_map).mp hkeys
  exact (List.pairwise_map).mpr h2

theorem normalizeAndDedup_idem_aux (xs : List Str) :
    normalizeAndDedup (normalizeAndDedup xs) = normalizeAndDedup xs := by
  have hvals : ∀ v ∈ (bestMap xs).map Prod.snd, v = normWs v ∧ v ≠ [] := by
    intro v hv
    rcases List.mem_map.mp hv with ⟨kv, hkv, hsnd⟩
    have hp := bestMap_prop xs kv hkv
    rcases hp.1 with ⟨s, _, hval⟩
    refine ⟨?_, hsnd ▸ hp.2.1⟩
    rw [← hsnd, hval, normWs_idem]
  have hout_norm : ∀ v ∈ normalizeAndDedup xs, v = normWs v ∧ v ≠ [] := by
    intro v hv
    exact hvals v ((normalizeAndDedup_perm_values xs).mem_iff.mp hv)
  have hout_pw : List.Pairwise (fun a b : Str => keyOf a ≠ keyOf b) (normalizeAndDedup xs) := by
    refine ((normalizeAndDedup_perm_values xs).pairwise_iff ?_).mpr
      (bestMap_values_keys_pairwise xs)
    intro a b hab he
    exact hab he.symm
  have hbm : bestMap (normalizeAndDedup xs) =
      (normalizeAndDedup xs).map (fun v => (keyOf v, v)) :=
    bestMap_of_distinct _ hout_norm hout_pw
  rw [normalizeAndDedup_eq_sort (normalizeAndDedup xs), hbm, List.map_map]
  have hcomp : (Prod.snd ∘ fun v : Str => (keyOf v, v)) = id := rfl
  rw [hcomp, List.map_id]
  unfold sortStrs
  exact (normalizeAndDedup_sorted xs).insertionSort_eq

theorem looksLike_ne_nil (t : Str) (h : looksLikeNameToken t = true) : t ≠ [] := by
  intro he
  subst he
  simp [looksLikeNameToken] at h

theorem token_goodCand (t : Str) (hsp : ∀ c ∈ t, goIsSpace c = false)
    (hlk : looksLikeNameToken t = true) : goodCand t := by
  have hne := looksLike_ne_nil t hlk
  have hf : fieldsP goIsSpace t = [t] := fieldsP_single goIsSpace t hne hsp
  refine ⟨by simp [hf], by simp [hf], ?_⟩
  intro x hx
  rw [hf] at hx
  simp only [List.mem_singleton] at hx
  subst hx
  exact hlk

theorem joinSp_goodCand (buf : List Str) (h1 : 1 ≤ buf.length) (h3 : buf.length ≤ 3)
    (htok : ∀ t ∈ buf, t ≠ [] ∧ (∀ c ∈ t, goIsSpace c = false) ∧
      looksLikeNameToken t = true) : goodCand (joinSp buf) := by
  have hf : fieldsP goIsSpace (joinSp buf) = buf :=
    fieldsP_joinSp buf (fun t ht => ⟨(htok t ht).1, (htok t ht).2.1⟩)
  refine ⟨?_, by rw [hf]; exact h3, ?_⟩
  · rw [hf]
    intro he
    subst he
    simp at h1
  · intro x hx
    rw [hf] at hx
    exact (htok x hx).2.2

theorem cleanNameCore_good (s3 : Str) :
    (if (splitChar ' ' (joinSp (fieldsP goIsSpace s3))).length = 0 ∨
        (splitChar ' ' (joinSp (fieldsP goIsSpace s3))).length > 3 then []
     else if (splitChar ' ' (joinSp (fieldsP goIsSpace s3))).all looksLikeNameToken then
       joinSp (fieldsP goIsSpace s3)
     else []) ≠ [] →
    goodCand
      (if (splitChar ' ' (joinSp (fieldsP goIsSpace s3))).length = 0 ∨
          (splitChar ' ' (joinSp (fieldsP goIsSpace s3))).length > 3 then []
       else if (splitChar ' ' (joinSp (fieldsP goIsSpace s3))).all looksLikeNameToken then
         joinSp (fieldsP goIsSpace s3)
       else []) := by
  intro h
  cases hfs : fieldsP goIsSpace s3 with
  | nil =>
    rw [hfs] at h
    simp [joinSp, splitChar, looksLikeNameToken] at h
  | cons t ts =>
    have hprops := fieldsP_props goIsSpace s3
    rw [hfs] at hprops
    have hnosp : ∀ x ∈ t :: ts, ∀ c ∈ x, c ≠ ' ' := by
      intro x hx c hc he
      have := (hprops x hx).2 c hc
      rw [he] at this
      simp [goIsSpace] at this
    have hsplit : splitChar ' ' (joinSp (t :: ts)) = t :: ts :=
      splitChar_joinSp (t :: ts) (by simp) hnosp
    rw [hfs, hsplit] at h
    rw [hsplit]
    by_cases hlen : (t :: ts).length = 0 ∨ (t :: ts).length > 3
    · rw [if_pos hlen] at h
      exact absurd rfl h
    · rw [if_neg hlen] at h ⊢
      by_cases hall : (t :: ts).all looksLikeNameToken = true
      · rw [if_pos hall] at h ⊢
        apply joinSp_goodCand (t :: ts) (by simp) (by omega)
        intro x hx
        have hlk := (List.all_eq_true.mp hall) x hx
        exact ⟨(hprops x hx).1, (hprops x hx).2, hlk⟩
      · rw [if_neg hall] at h
        exact absurd rfl h

theorem cleanName_goodCand (s0 : Str) (h : cleanName s0 ≠ []) : goodCand (cleanName s0) :=
  cleanNameCore_good _ h

theorem flushBuf_mem (buf : List Str) (chunk : Str) (h : chunk ∈ flushBuf buf) :
    1 ≤ buf.length ∧ buf.length ≤ 3 ∧ chunk = joinSp buf := by
  unfold flushBuf at h
  by_cases hc : 1 ≤ buf.length ∧ buf.length ≤ 3
  · rw [if_pos hc] at h
    simp only [List.mem_singleton] at h
    exact ⟨hc.1, hc.2, h⟩
  · rw [if_neg hc] at h
    simp at h

theorem buildChunks_good (ws : List Str) : ∀ buf : List Str,
    (∀ w ∈ ws, ∀ c ∈ w, goIsSpace c = false) →
    (∀ t ∈ buf, t ≠ [] ∧ (∀ c ∈ t, goIsSpace c = false) ∧ looksLikeNameToken t = true) →
    ∀ chunk ∈ buildChunks ws buf, goodCand chunk := by
  induction ws with
  | nil =>
    intro buf _ hbuf chunk hchunk
    simp only [buildChunks] at hchunk
    obtain ⟨h1, h3, heq⟩ := flushBuf_mem buf chunk hchunk
    rw [heq]
    exact joinSp_goodCand buf h1 h3 hbuf
  | cons w ws ih =>
    intro buf hws hbuf chunk hchunk
    have hwsp : ∀ c ∈ trimChars quoteChars w, goIsSpace c = false := by
      intro c hc
      exact hws w (List.mem_cons_self w ws) c (mem_trimP _ w c hc)
    have hws' : ∀ x ∈ ws, ∀ c ∈ x, goIsSpace c = false :=
      fun x hx => hws x (List.mem_cons_of_mem w hx)
    simp only [buildChunks] at hchunk
    by_cases hemp : trimChars quoteChars w = []
    · rw [if_pos hemp] at hchunk
      exact ih buf hws' hbuf chunk hchunk
    · rw [if_neg hemp] at hchunk
      by_cases hcond : (looksLikeNameToken (trimChars quoteChars w) &&
          !isStopSingle (trimChars quoteChars w)) = true
      · rw [if_pos hcond] at hchunk
        refine ih (buf ++ [trimChars quoteChars w]) hws' ?_ chunk hchunk
        intro t ht
        rcases List.mem_append.mp ht with ht | ht
        · exact hbuf t ht
        · simp only [List.mem_singleton] at ht
          subst ht
          have hlk : looksLikeNameToken (trimChars quoteChars w) = true := by
            rw [Bool.and_eq_true] at hcond
            exact hcond.1
          exact ⟨hemp, hwsp, hlk⟩
      · rw [if_neg hcond] at hchunk
        rcases List.mem_append.mp hchunk with hm | hm
        · obtain ⟨h1, h3, heq⟩ := flushBuf_mem buf chunk hm
          rw [heq]
          exact joinSp_goodCand buf h1 h3 hbuf
        · exact ih [] hws' (by simp) chunk hm

theorem titleCaseChunks_good (text : Str) (chunk : Str)
    (h : chunk ∈ titleCaseChunks text) : goodCand chunk := by
  unfold titleCaseChunks at h
  rw [(List.perm_insertionSort chunkGe _).mem_iff] at h
  refine buildChunks_good (fieldsP chunkDelim text) [] ?_ (by simp) chunk h
  intro w hw c hc
  have := (fieldsP_props chunkDelim text w hw).2 c hc
  unfold chunkDelim at this
  exact (Bool.or_eq_false_iff.mp this).1

theorem singleTitleTokens_props (text : Str) (tok : Str)
    (h : tok ∈ singleTitleTokens text) :
    tok ≠ [] ∧ (∀ c ∈ tok, goIsSpace c = false) ∧ looksLikeNameToken tok = true := by
  unfold singleTitleTokens at h
  rcases List.mem_filterMap.mp h with ⟨w, hw, hf⟩
  simp only at hf
  by_cases hcond : (looksLikeNameToken (trimChars quoteChars w) &&
      !isStopSingle (trimChars quoteChars w)) = true
  · rw [if_pos hcond] at hf
    have htok : tok = trimChars quoteChars w := (Option.some_inj.mp hf).symm
    subst htok
    have hlk : looksLikeNameToken (trimChars quoteChars w) = true := by
      rw [Bool.and_eq_true] at hcond
      exact hcond.1
    refine ⟨looksLike_ne_nil _ hlk, ?_, hlk⟩
    intro c hc
    have hmem := mem_trimP _ w c hc
    have := (fieldsP_props chunkDelim text w hw).2 c hmem
    unfold chunkDelim at this
    exact (Bool.or_eq_false_iff.mp this).1
  · rw [if_neg hcond] at hf
    exact absurd hf (by simp)

theorem lineCands_good (spOrd : List Str) (ln : Str) (v : Str)
    (h : v ∈ lineCands spOrd ln) : goodCand v := by
  unfold lineCands at h
  by_cases hemp : trimP goIsSpace ln = []
  · rw [if_pos hemp] at h
    simp at h
  · rw [if_neg hemp] at h
    cases hcue : cueMatch (trimP goIsSpace ln) with
    | none => rw [hcue] at h; simp at h
    | some rv =>
      rw [hcue] at h
      obtain ⟨roleRaw, values⟩ := rv
      rcases List.mem_filterMap.mp h with ⟨p, _, hf⟩
      simp only at hf
      by_cases hc1 : cleanName p ≠ [] ∧
          ¬(containsStopContextOrd spOrd (trimP goIsSpace ln) = true)
      · rw [if_pos hc1] at hf
        by_cases hc2 : (containsSub ((trimP goIsSpace roleRaw).map toLowerChar) ("host".data) ||
            containsSub ((trimP goIsSpace roleRaw).map toLowerChar) ("musical".data)) = true
        · rw [if_pos hc2] at hf
          exact absurd hf (by simp)
        · rw [if_neg hc2] at hf
          have hv : v = cleanName p := (Option.some_inj.mp hf).symm
          subst hv
          exact cleanName_goodCand p hc1.1
      · rw [if_neg hc1] at hf
        exact absurd hf (by simp)

theorem candidatesOfGen_good (spOrd : List Str) (desc : Str) (dict : Option NameDict)
    (v : Str) (h : v ∈ candidatesOfGen spOrd desc dict) : goodCand v := by
  unfold candidatesOfGen at h
  have hc12 : ∀ w ∈ cands12 spOrd desc dict, goodCand w := by
    intro w hw
    unfold cands12 at hw
    by_cases h1 : stage1 spOrd (splitChar '\n' (replaceCRLF desc)) = []
    · rw [if_pos h1] at hw
      unfold stage2 at hw
      rcases List.mem_filterMap.mp hw with ⟨chunk, hchunk, hf⟩
      by_cases hsp : isStopPhrase chunk = true
      · rw [if_pos hsp] at hf
        exact absurd hf (by simp)
      · rw [if_neg hsp] at hf
        by_cases hacc : acceptByDict chunk dict = true
        · rw [if_pos hacc] at hf
          have hv : w = chunk := (Option.some_inj.mp hf).symm
          subst hv
          exact titleCaseChunks_good _ w hchunk
        · rw [if_neg hacc] at hf
          exact absurd hf (by simp)
    · rw [if_neg h1] at hw
      unfold stage1 at hw
      rcases List.mem_flatMap.mp hw with ⟨ln, _, hln⟩
      exact lineCands_good spOrd ln w hln
  by_cases hempty : cands12 spOrd desc dict = []
  · rw [if_pos hempty] at h
    cases dict with
    | none => exact absurd h (List.not_mem_nil v)
    | some nd =>
      simp only at h
      by_cases hne : (!nd.first.isEmpty) = true
      · rw [if_pos hne] at h
        unfold stage3 at h
        have hmem := List.mem_filter.mp h
        obtain ⟨hne', hsp, hlk⟩ := singleTitleTokens_props (replaceCRLF desc) v hmem.1
        exact token_goodCand v hsp hlk
      · rw [if_neg hne] at h
        simp at h
  · rw [if_neg hempty] at h
    exact hc12 v h

theorem inferPlayerNames_good (desc : Str) (dict : Option NameDict) (v : Str)
    (h : v ∈ InferPlayerNames desc dict) : goodCand v := by
  unfold InferPlayerNames at h
  rcases (mem_normalizeAndDedup_iff _ v).mp h with ⟨kv, hkv, hsnd⟩
  have hp := bestMap_prop _ kv hkv
  rcases hp.1 with ⟨s, hs, hval⟩
  have hgs : goodCand s := candidatesOfGen_good stopPhrasesList desc dict s hs
  have hfields : fieldsP goIsSpace v = fieldsP goIsSpace s := by
    rw [← hsnd, hval]
    exact fieldsP_normWs s
  unfold goodCand at hgs ⊢
  rw [hfields]
  exact hgs

/-- C1: `InferPlayerNames` is deterministic.  The only per-invocation
nondeterminism in the source is Go's randomized map iteration (the
`stopPhrases` range in `containsStopContext` and the `best` range in
`normalizeAndDedup`); for every iteration order of both maps — any
permutation `spOrd` of the stop-phrase table and any permutation `ordB` of
the `best` entries — the emitted result equals the canonical
`InferPlayerNames desc dict`, so two invocations with identical inputs
return identical, identically-ordered lists. -/
theorem infer_deterministic (desc : Str) (dict : Option NameDict) (spOrd : List Str)
    (ordB : List (Str × Str)) (h1 : spOrd.Perm stopPhrasesList)
    (h2 : ordB.Perm (bestMap (candidatesOfGen spOrd desc dict))) :
    emitFrom ordB = InferPlayerNames desc dict := by
  rw [candidatesOfGen_ord spOrd h1 desc dict] at h2
  unfold InferPlayerNames normalizeAndDedup
  exact emitFrom_perm ordB _ h2 (bestMap_values_lower_nodup' _)

/-- Witness for C1 at a concrete description, with both map orders
reversed relative to the canonical ones. -/
theorem infer_deterministic_witness :
    emitFrom [(("cal".data : Str), ("Cal Dee".data : Str)),
              (("ann".data : Str), ("Ann Bee".data : Str))] =
      InferPlayerNames ("Cast: Ann Bee, Cal Dee".data) none :=
  infer_deterministic ("Cast: Ann Bee, Cal Dee".data) none stopPhrasesList.reverse
    [(("cal".data : Str), ("Cal Dee".data : Str)), (("ann".data : Str), ("Ann Bee".data : Str))]
    (by decide) (by decide)

/-- C2: for every description and dictionary the result of
`InferPlayerNames` is sorted ascending in the Go string order and has no
two entries that are equal after lower-casing. -/
theorem infer_sorted_ci_nodup (desc : Str) (dict : Option NameDict) :
    (InferPlayerNames desc dict).Sorted strLeProp ∧
      ((InferPlayerNames desc dict).map (List.map toLowerChar)).Nodup :=
  ⟨normalizeAndDedup_sorted _, normalizeAndDedup_lower_nodup _⟩

/-- C3 counterexample: the cue-line stage performs no stop-single check on
its cleaned segments, so `InferPlayerNames "Cast: Show" nil` returns
`["Show"]` although `"Show"` is a `stopSingles` entry (hence an output
string case-insensitively equal to a stop entry exists). -/
theorem infer_stop_output_counterexample :
    InferPlayerNames ("Cast: Show".data) none = [("Show".data : Str)] ∧
      ("Show".data : Str) ∈ stopSinglesList := by decide

/-- C3 amended: every output string of `InferPlayerNames` has between 1 and
3 whitespace-separated tokens (the stop-exclusion half of the claim is
false, see the counterexample). -/
theorem infer_token_count (desc : Str) (dict : Option NameDict) (v : Str)
    (h : v ∈ InferPlayerNames desc dict) :
    1 ≤ (fieldsP goIsSpace v).length ∧ (fieldsP goIsSpace v).length ≤ 3 := by
  have hg := inferPlayerNames_good desc dict v h
  refine ⟨?_, hg.2.1⟩
  have := List.length_pos.mpr hg.1
  omega

/-- Witness for C3's amended theorem at a concrete inference result. -/
theorem infer_token_count_witness :
    1 ≤ (fieldsP goIsSpace ("Sam".data : Str)).length ∧
      (fieldsP goIsSpace ("Sam".data : Str)).length ≤ 3 :=
  infer_token_count ("Join Sam for a great show!".data)
    (some ⟨[("sam".data : Str)], [], []⟩) ("Sam".data) (by decide)

/-- C4 counterexample: with the empty (non-nil) dictionary object the
disambiguator rejects the two-word chunk "Jane Doe", although the claim
demands acceptance of every chunk with two or more words. -/
theorem acceptByDict_empty_counterexample :
    acceptByDict ("Jane Doe".data) (some emptyDict) = false ∧
      2 ≤ (fieldsP goIsSpace ("Jane Doe".data : Str)).length := by decide

/-- C4 amended: the accept-iff-two-or-more-words rule holds only for the
nil dictionary pointer; with the empty dictionary object (all three sets
empty) every chunk is rejected. -/
theorem acceptByDict_nil_vs_empty :
    (∀ chunk : Str, acceptByDict chunk none =
        decide (2 ≤ (fieldsP goIsSpace chunk).length)) ∧
      (∀ chunk : Str, acceptByDict chunk (some emptyDict) = false) := by
  constructor
  · intro chunk
    rfl
  · intro chunk
    unfold acceptByDict
    rcases hf : fieldsP goIsSpace (List.map toLowerChar chunk) with
      _ | ⟨p1, _ | ⟨p2, _ | ⟨p3, _ | ⟨p4, rest⟩⟩⟩⟩ <;>
      simp [emptyDict, hf]

/-- C5 counterexample: on "Featuring Sam Okafor and J. Rivera" with the
empty dictionary object the engine returns `[]`, not the claimed
`["J. Rivera", "Sam Okafor"]` (no cue fires for lack of a `:`/`-`
separator, the chunk stage rejects everything under an empty non-nil
dictionary, and the fallback needs a non-empty first-name set). -/
theorem infer_featuring_counterexample :
    InferPlayerNames ("Featuring Sam Okafor and J. Rivera".data) (some emptyDict) = [] ∧
      InferPlayerNames ("Featuring Sam Okafor and J. Rivera".data) (some emptyDict) ≠
        [("J. Rivera".data : Str), ("Sam Okafor".data : Str)] := by decide

/-- C5 amended: with a nil dictionary the example returns
`["J Rivera", "Sam Okafor"]` — the chunk tokenizer splits on `.`, so the
period of "J." does not survive; with the empty dictionary object it
returns `[]`. -/
theorem infer_featuring_amended :
    InferPlayerNames ("Featuring Sam Okafor and J. Rivera".data) none =
        [("J Rivera".data : Str), ("Sam Okafor".data : Str)] ∧
      InferPlayerNames ("Featuring Sam Okafor and J. Rivera".data) (some emptyDict) = [] := by
  decide

/-- C6 counterexample: the dedup rule compares Go `len`, i.e. UTF-8 bytes,
not characters: in the group with key "a" the kept string "A ééé" (8
bytes) has strictly fewer characters than the discarded "A bcde"
(6 characters vs 5), so "longest measured in characters" is false. -/
theorem dedup_bytes_counterexample :
    normalizeAndDedup [("A bcde".data : Str), ("A ééé".data : Str)] = [("A ééé".data : Str)] ∧
      ("A ééé".data : Str).length < ("A bcde".data : Str).length ∧
      keyOf ("A bcde".data) = keyOf ("A ééé".data) := by decide

/-- C6 amended: within each group of normalized candidates sharing a
lower-cased first token, `normalizeAndDedup` keeps exactly the longest
candidate measured in UTF-8 bytes (`strLen`), ties broken in favor of the
first-seen candidate: its output elements are exactly the
first-seen-wins byte-length maxima of the non-empty groups. -/
theorem normalizeAndDedup_keeps_firstMax (xs : List Str) (v : Str) :
    v ∈ normalizeAndDedup xs ↔ ∃ k, firstMax (groupOf k xs) = some v := by
  rw [mem_normalizeAndDedup_iff]
  constructor
  · rintro ⟨kv, hkv, hsnd⟩
    obtain ⟨k, v'⟩ := kv
    refine ⟨k, ?_⟩
    rw [← lookupK_bestMap]
    exact (mem_iff_lookupK (bestMap xs) k v (bestMap_keys_nodup xs)).mp (hsnd ▸ hkv)
  · rintro ⟨k, hk⟩
    rw [← lookupK_bestMap] at hk
    exact ⟨(k, v), (mem_iff_lookupK (bestMap xs) k v (bestMap_keys_nodup xs)).mpr hk, rfl⟩

/-- C7: with `firstNames = {"sam"}` and empty last/full sets, on
"Join Sam for a great show!" no cue line fires, stages 1–2 accept nothing,
and the single-token fallback yields exactly `["Sam"]`. -/
theorem infer_join_sam :
    InferPlayerNames ("Join Sam for a great show!".data)
        (some ⟨[("sam".data : Str)], [], []⟩) = [("Sam".data : Str)] ∧
      cands12 stopPhrasesList ("Join Sam for a great show!".data)
        (some ⟨[("sam".data : Str)], [], []⟩) = [] ∧
      cueMatch (trimP goIsSpace ("Join Sam for a great show!".data)) = none := by decide

/-- C8: `normalizeAndDedup` is idempotent: renormalizing its own output is
a no-op. -/
theorem normalizeAndDedup_idem (xs : List Str) :
    normalizeAndDedup (normalizeAndDedup xs) = normalizeAndDedup xs :=
  normalizeAndDedup_idem_aux xs

/-- C9: every whitespace-separated token of every string returned by
`InferPlayerNames` satisfies the source's name-token predicate
`looksLikeNameToken` (first rune upper-case, or an initials-like token of
at most 3 bytes made of letters, periods and apostrophes equal to its own
upper-casing). -/
theorem infer_tokens_nameToken (desc : Str) (dict : Option NameDict) (v t : Str)
    (hv : v ∈ InferPlayerNames desc dict) (ht : t ∈ fieldsP goIsSpace v) :
    looksLikeNameToken t = true :=
  (inferPlayerNames_good desc dict v hv).2.2 t ht

/-- Witness for C9 at a concrete inference result. -/
theorem infer_tokens_nameToken_witness :
    looksLikeNameToken ("Sam".data : Str) = true :=
  infer_tokens_nameToken ("Join Sam for a great show!".data)
    (some ⟨[("sam".data : Str)], [], []⟩) ("Sam".data) ("Sam".data)
    (by decide) (by decide)

/-- C10: calling `InferPlayerNames` with a nil dictionary pointer is safe
(the embedding is total on `none`): the disambiguator's dedicated nil
branch accepts exactly the chunks with two or more fields, and the
single-token fallback never contributes — the result is exactly the
normalization of the stage-1/2 pool. -/
theorem infer_nil_dict_behavior :
    (∀ chunk : Str, acceptByDict chunk none =
        decide (2 ≤ (fieldsP goIsSpace chunk).length)) ∧
      (∀ desc : Str, InferPlayerNames desc none =
        normalizeAndDedup (cands12 stopPhrasesList desc none)) := by
  constructor
  · intro chunk
    rfl
  · intro desc
    unfold InferPlayerNames candidatesOf candidatesOfGen
    by_cases hc : cands12 stopPhrasesList desc none = []
    · rw [if_pos hc, hc]
    · rw [if_neg hc]
